import Mathlib

/-!
# GracyBot plugin runtime — verification of the core components

Shallow embedding of the plugin runtime of the GracyBot repository:
version parsing/comparison, dependency-graph cycle detection and load
sequencing (`src/core/plugin_manager.py`), the command matcher, the
rate limiter and permission checks (`src/core/security_manager.py`),
the dispatch pipeline (`src/core/handler.py`) and the execution
accountant (`src/core/monitor.py`).

Every definition is translated from the Python source; source file and
line numbers are recorded in the doc comments.  Python dictionaries are
modelled as association lists (first binding wins, as `dict` keys are
unique), Python lists as `List`, and machine floats used as clock
readings as integers (`Int`) — every comparison and threshold from the
source is carried over verbatim.
-/

namespace GracyBot

/-! ## Version parsing and comparison (plugin_manager.py lines 29-60) -/

/-- One step of scanning a character stream for maximal digit groups,
accumulating the (reversed) current group: the executable model of the
regular expression search `re.findall(r'\d+', version)` used by
`parse_version` (plugin_manager.py line 34).  Digits are modelled as the
ASCII digits `0`-`9` (`Char.isDigit`). -/
def digitRunsAux : List Char → List Char → List (List Char)
  | [], cur => if cur.isEmpty then [] else [cur.reverse]
  | c :: cs, cur =>
    if c.isDigit then digitRunsAux cs (c :: cur)
    else if cur.isEmpty then digitRunsAux cs [] else cur.reverse :: digitRunsAux cs []

/-- All maximal runs of consecutive digits in a character list, in order:
`re.findall(r'\d+', s)`. -/
def digitRuns (l : List Char) : List (List Char) := digitRunsAux l []

/-- Decimal value of a digit run: Python's `int(part)` for a non-empty
string of digits. -/
def digitVal (l : List Char) : Nat := l.foldl (fun acc c => acc * 10 + (c.toNat - 48)) 0

/-- `PluginManager.parse_version` (plugin_manager.py lines 29-38): extract
every digit group of the version string and read each as an integer, e.g.
`"1.2.3" ↦ [1, 2, 3]`.  The `except` branch of the source returns `[0]`,
but `re.findall` and `int` cannot raise on a `str` argument, so the model
is total without it. -/
def parse_version (version : String) : List Nat := (digitRuns version.data).map digitVal

/-- The component-by-component comparison loop of `compare_versions`
(plugin_manager.py lines 54-60), applied to two already padded lists of
equal length: `1` if the first component difference is in favour of the
left list, `-1` if in favour of the right, `0` if all components agree. -/
def cmpComponents : List Nat → List Nat → Int
  | a :: as, b :: bs => if b < a then 1 else if a < b then -1 else cmpComponents as bs
  | _, _ => 0

/-- Zero padding of `compare_versions` (plugin_manager.py lines 49-52):
extend a component list with zeros up to length `n`. -/
def padTo (l : List Nat) (n : Nat) : List Nat := l ++ List.replicate (n - l.length) 0

/-- `PluginManager.compare_versions` (plugin_manager.py lines 40-60):
parse both version strings, zero-pad the shorter component list to the
common length, and compare component-wise, returning `1`, `0` or `-1`. -/
def compare_versions (version1 version2 : String) : Int :=
  let v1 := parse_version version1
  let v2 := parse_version version2
  let maxLen := max v1.length v2.length
  cmpComponents (padTo v1 maxLen) (padTo v2 maxLen)

lemma cmpComponents_refl : ∀ x : List Nat, cmpComponents x x = 0 := by
  intro x
  induction x with
  | nil => rfl
  | cons a as ih => simp [cmpComponents, ih]

lemma cmpComponents_neg : ∀ x y : List Nat, cmpComponents x y = -cmpComponents y x := by
  intro x
  induction x with
  | nil => intro y; cases y <;> rfl
  | cons a as ih =>
    intro y
    cases y with
    | nil => rfl
    | cons b bs =>
      rcases lt_trichotomy a b with h | h | h
      · simp [cmpComponents, h, asymm h, h.ne]
      · subst h; simp [cmpComponents, ih bs]
      · simp [cmpComponents, h, asymm h, h.ne]

lemma cmpComponents_total : ∀ x y : List Nat,
    cmpComponents x y = 1 ∨ cmpComponents x y = 0 ∨ cmpComponents x y = -1 := by
  intro x
  induction x with
  | nil => intro y; cases y <;> simp [cmpComponents]
  | cons a as ih =>
    intro y
    cases y with
    | nil => simp [cmpComponents]
    | cons b bs =>
      by_cases h1 : b < a
      · simp [cmpComponents, h1]
      · by_cases h2 : a < b
        · simp [cmpComponents, h1, h2]
        · simpa [cmpComponents, h1, h2] using ih bs

lemma cmpComponents_append_zeros :
    ∀ (x y : List Nat), x.length = y.length → ∀ k : Nat,
      cmpComponents (x ++ List.replicate k 0) (y ++ List.replicate k 0) = cmpComponents x y := by
  intro x
  induction x with
  | nil =>
    intro y hlen k
    cases y with
    | nil => simpa using cmpComponents_refl (List.replicate k 0)
    | cons b bs => simp at hlen
  | cons a as ih =>
    intro y hlen k
    cases y with
    | nil => simp at hlen
    | cons b bs =>
      simp only [List.length_cons, Nat.succ_inj] at hlen
      by_cases h1 : b < a
      · simp [cmpComponents, h1]
      · by_cases h2 : a < b
        · simp [cmpComponents, h1, h2]
        · simpa [cmpComponents, h1, h2] using ih bs hlen k

lemma padTo_length {l : List Nat} {n : Nat} (h : l.length ≤ n) : (padTo l n).length = n := by
  simp [padTo]
  omega

lemma padTo_of_le {l : List Nat} {m n : Nat} (hm : l.length ≤ m) (hmn : m ≤ n) :
    padTo l n = padTo l m ++ List.replicate (n - m) 0 := by
  simp only [padTo, List.append_assoc, List.append_cancel_left_eq]
  rw [← List.replicate_add]
  congr 1
  omega

/-- Padding both component lists beyond the common maximum length does not
change the comparison verdict. -/
lemma cmpComponents_padTo_stable (x y : List Nat) {n : Nat}
    (h : max x.length y.length ≤ n) :
    cmpComponents (padTo x n) (padTo y n) =
      cmpComponents (padTo x (max x.length y.length)) (padTo y (max x.length y.length)) := by
  set m := max x.length y.length with hm
  have hx : x.length ≤ m := le_max_left _ _
  have hy : y.length ≤ m := le_max_right _ _
  rw [padTo_of_le hx h, padTo_of_le hy h]
  exact cmpComponents_append_zeros _ _ (by rw [padTo_length hx, padTo_length hy]) _

lemma cmpComponents_trans :
    ∀ (x y z : List Nat), x.length = y.length → y.length = z.length →
      cmpComponents x y ≤ 0 → cmpComponents y z ≤ 0 → cmpComponents x z ≤ 0 := by
  intro x
  induction x with
  | nil =>
    intro y z hxy hyz _ hbc
    cases y with
    | nil => cases z with
      | nil => simp [cmpComponents]
      | cons c cs => simp at hyz
    | cons b bs => simp at hxy
  | cons a as ih =>
    intro y z hxy hyz hab hbc
    cases y with
    | nil => simp at hxy
    | cons b bs =>
      cases z with
      | nil => simp at hyz
      | cons c cs =>
        simp only [List.length_cons, Nat.succ_inj] at hxy hyz
        have hab' : ¬ b < a := by
          intro h; rw [cmpComponents, if_pos h] at hab; omega
        have hbc' : ¬ c < b := by
          intro h; rw [cmpComponents, if_pos h] at hbc; omega
        have hac : ¬ c < a := by omega
        by_cases hac2 : a < c
        · simp [cmpComponents, hac, hac2]
        · have hab2 : a = b := by omega
          have hbc2 : b = c := by omega
          subst hab2; subst hbc2
          rw [cmpComponents] at hab hbc ⊢
          simp only [lt_irrefl, if_false] at hab hbc ⊢
          exact ih bs cs hxy hyz hab hbc

lemma compare_versions_eq_cmp (a b : String) :
    compare_versions a b =
      cmpComponents (padTo (parse_version a) (max (parse_version a).length (parse_version b).length))
        (padTo (parse_version b) (max (parse_version a).length (parse_version b).length)) := rfl

lemma compare_versions_refl (a : String) : compare_versions a a = 0 := by
  rw [compare_versions_eq_cmp]
  exact cmpComponents_refl _

lemma compare_versions_antisymm (a b : String) :
    compare_versions a b = -compare_versions b a := by
  rw [compare_versions_eq_cmp, compare_versions_eq_cmp]
  rw [max_comm (parse_version b).length (parse_version a).length]
  exact cmpComponents_neg _ _

lemma compare_versions_total (a b : String) :
    compare_versions a b = 1 ∨ compare_versions a b = 0 ∨ compare_versions a b = -1 :=
  cmpComponents_total _ _

lemma compare_versions_trans (a b c : String) :
    compare_versions a b ≤ 0 → compare_versions b c ≤ 0 → compare_versions a c ≤ 0 := by
  intro hab hbc
  set pa := parse_version a
  set pb := parse_version b
  set pc := parse_version c
  set n := max pa.length (max pb.length pc.length) with hn
  have hpa : pa.length ≤ n := le_max_left _ _
  have hpb : pb.length ≤ n := le_trans (le_max_left _ _) (le_max_right _ _)
  have hpc : pc.length ≤ n := le_trans (le_max_right _ _) (le_max_right _ _)
  have hab' : cmpComponents (padTo pa n) (padTo pb n) ≤ 0 := by
    rw [cmpComponents_padTo_stable pa pb (max_le hpa hpb)]; exact hab
  have hbc' : cmpComponents (padTo pb n) (padTo pc n) ≤ 0 := by
    rw [cmpComponents_padTo_stable pb pc (max_le hpb hpc)]; exact hbc
  have hac' : cmpComponents (padTo pa n) (padTo pc n) ≤ 0 :=
    cmpComponents_trans _ _ _
      (by rw [padTo_length hpa, padTo_length hpb])
      (by rw [padTo_length hpb, padTo_length hpc]) hab' hbc'
  rw [cmpComponents_padTo_stable pa pc (max_le hpa hpc)] at hac'
  rw [compare_versions_eq_cmp]
  exact hac'

/-! ## Dependency graph and cycle detection (plugin_manager.py lines 62-82, 163-199)

`DEPENDENCY_GRAPH` is a Python dict mapping a plugin name to the list of
names it depends on; it is modelled as an association list with the
dict's (unique-key, insertion-ordered) lookup discipline.
`check_circular_dependency` is a recursive depth-first search carrying a
mutable `visited` set and a `path` stack; the embedding threads `visited`
through and passes `path` by value (the source's `path.pop()` on normal
return restores the caller's stack, which is exactly value passing).
Python's unbounded recursion is modelled with a fuel parameter that,
given at least as much fuel as there are node occurrences in the graph,
is never exhausted (proved below). -/

/-- A dependency graph: plugin name to list of dependency names. -/
abbrev DepGraph := List (String × List String)

/-- Dict lookup `DEPENDENCY_GRAPH[name]` guarded by
`if name in DEPENDENCY_GRAPH` (plugin_manager.py line 69). -/
def graphDeps (g : DepGraph) (n : String) : Option (List String) :=
  (g.find? (fun p => p.1 == n)).map Prod.snd

/-- The dependency list of `n`, empty when `n` is not a key of the graph. -/
def depsList (g : DepGraph) (n : String) : List String := (graphDeps g n).getD []

/-- `path[path.index(d):]` (plugin_manager.py line 76-77): the suffix of
`path` from the first occurrence of `d`. -/
def dropUntil (d : String) : List String → List String
  | [] => []
  | x :: xs => if x = d then x :: xs else dropUntil d xs

/-- The `for dependency in DEPENDENCY_GRAPH[plugin_name]` loop of
`check_circular_dependency` (plugin_manager.py lines 70-79), parametrised
by the recursive call (`descend`).  Returns the rendered cycle (the
payload of the error log at line 77-78, as the list of names joined by
`" -> "`) when one is found, together with the updated `visited` set. -/
def checkDepsF (descend : String → List String → List String → Option (List String) × List String) :
    List String → List String → List String → Option (List String) × List String
  | [], visited, _ => (none, visited)
  | d :: ds, visited, path =>
    if d ∈ visited then
      if d ∈ path then (some (dropUntil d path ++ [d]), visited)
      else checkDepsF descend ds visited path
    else
      match descend d visited path with
      | (some c, v') => (some c, v')
      | (none, v') => checkDepsF descend ds v' path

/-- `PluginManager.check_circular_dependency` (plugin_manager.py lines
62-82): add the current name to `visited` and to the `path` stack, then
scan its declared dependencies depth-first.  `fuel` bounds the recursion
depth; the source relies on `visited` growing at every nested call for
termination, and `fuel ≥` the number of node occurrences is shown
sufficient below. -/
def checkNode (g : DepGraph) : Nat → String → List String → List String →
    Option (List String) × List String
  | 0, _, visited, _ => (none, visited)
  | Nat.succ fuel, name, visited, path =>
    let visited1 := name :: visited
    let path1 := path ++ [name]
    match graphDeps g name with
    | none => (none, visited1)
    | some deps => checkDepsF (checkNode g fuel) deps visited1 path1

/-- The cycle-detection loop of `PluginManager.init` (plugin_manager.py
lines 181-186): every key of `DEPENDENCY_GRAPH` is taken as a DFS root
with a fresh `set()` and `[]` (the module-level `VISITED` is cleared at
line 181 and never added to, so the `if plugin_name not in VISITED` guard
always passes); the first root that reports a cycle aborts the scan. -/
def findCycleList (g : DepGraph) (fuel : Nat) : List String → Option (List String)
  | [] => none
  | k :: ks =>
    match (checkNode g fuel k [] []).1 with
    | some c => some c
    | none => findCycleList g fuel ks

/-- Cycle detection over all roots, in key order. -/
def findCycle (g : DepGraph) (fuel : Nat) : Option (List String) :=
  findCycleList g fuel (g.map Prod.fst)

/-- `b` is a declared dependency of `a`. -/
def edgeB (g : DepGraph) (a b : String) : Bool := (depsList g a).contains b

/-- Every consecutive pair of the list is an edge of the graph. -/
def chainB (g : DepGraph) : List String → Bool
  | a :: b :: rest => edgeB g a b && chainB g (b :: rest)
  | _ => true

/-- `c` renders a genuine simple cycle of `g`: at least two entries, the
first and last entries are equal, every consecutive pair is a declared
dependency edge, and the entries other than the final repetition are
pairwise distinct — so `c` lists the nodes of a simple cycle of length
`c.length - 1` (edges and distinct nodes alike) in full. -/
def renderedCycle (g : DepGraph) (c : List String) : Prop :=
  2 ≤ c.length ∧ c.head? = c.getLast? ∧ chainB g c = true ∧ c.dropLast.Nodup

instance (g : DepGraph) (c : List String) : Decidable (renderedCycle g c) := by
  unfold renderedCycle; infer_instance

/-! ### Structural lemmas about chains and path suffixes -/

lemma chainB_of_cons {g : DepGraph} {x : String} {l : List String}
    (h : chainB g (x :: l) = true) : chainB g l = true := by
  cases l with
  | nil => rfl
  | cons y t =>
    rw [chainB, Bool.and_eq_true] at h
    exact h.2

lemma chainB_suffix {g : DepGraph} :
    ∀ {xs ys : List String}, chainB g (xs ++ ys) = true → chainB g ys = true := by
  intro xs
  induction xs with
  | nil => intro ys h; exact h
  | cons x t ih => intro ys h; exact ih (chainB_of_cons h)

lemma chainB_append_singleton {g : DepGraph} :
    ∀ {xs : List String} {y : String},
      chainB g (xs ++ [y]) = true ↔
        chainB g xs = true ∧ ∀ l, xs.getLast? = some l → edgeB g l y = true := by
  intro xs
  induction xs with
  | nil => simp [chainB]
  | cons x t ih =>
    intro y
    cases t with
    | nil => simp [chainB]
    | cons z t2 =>
      constructor
      · intro h
        rw [List.cons_append, List.cons_append, chainB, Bool.and_eq_true] at h
        obtain ⟨he, hrest⟩ := h
        have h2 := (@ih y).mp hrest
        refine ⟨?_, ?_⟩
        · rw [chainB, Bool.and_eq_true]; exact ⟨he, h2.1⟩
        · intro l hl
          exact h2.2 l (by simpa using hl)
      · rintro ⟨hc, hlast⟩
        rw [chainB, Bool.and_eq_true] at hc
        rw [List.cons_append, List.cons_append, chainB, Bool.and_eq_true]
        refine ⟨hc.1, (@ih y).mpr ⟨hc.2, ?_⟩⟩
        intro l hl
        exact hlast l (by simpa using hl)

lemma dropUntil_eq_cons {d : String} :
    ∀ {l : List String}, d ∈ l → ∃ t, dropUntil d l = d :: t := by
  intro l
  induction l with
  | nil => intro h; cases h
  | cons x xs ih =>
    intro h
    by_cases hx : x = d
    · subst hx; exact ⟨xs, by simp [dropUntil]⟩
    · have hm : d ∈ xs := by
        rcases List.mem_cons.mp h with h1 | h1
        · exact absurd h1.symm hx
        · exact h1
      simpa [dropUntil, hx] using ih hm

lemma dropUntil_isSuffix (d : String) :
    ∀ l : List String, dropUntil d l <:+ l := by
  intro l
  induction l with
  | nil => exact ⟨[], rfl⟩
  | cons x xs ih =>
    by_cases hx : x = d
    · exact ⟨[], by simp [dropUntil, hx]⟩
    · obtain ⟨w, hw⟩ := ih
      exact ⟨x :: w, by simp [dropUntil, hx, hw]⟩

lemma getLast?_of_isSuffix {ys l : List String} (h : ys <:+ l) (hne : ys ≠ []) :
    ys.getLast? = l.getLast? := by
  obtain ⟨pre, rfl⟩ := h
  rw [List.getLast?_append]
  cases hy : ys.getLast? with
  | none => exact absurd (List.getLast?_eq_none_iff.mp hy) hne
  | some a => rfl

/-! ### `visited` only grows -/

lemma checkDepsF_visited_mono
    {descend : String → List String → List String → Option (List String) × List String}
    (hdes : ∀ d v p, v ⊆ (descend d v p).2) :
    ∀ (deps visited path : List String),
      visited ⊆ (checkDepsF descend deps visited path).2 := by
  intro deps
  induction deps with
  | nil => intro visited path; simp [checkDepsF]
  | cons d ds ih =>
    intro visited path
    by_cases hv : d ∈ visited
    · by_cases hp : d ∈ path
      · simp [checkDepsF, hv, hp]
      · rw [checkDepsF, if_pos hv, if_neg hp]; exact ih visited path
    · rcases hcall : descend d visited path with ⟨oc, v2⟩
      have hsub : visited ⊆ v2 := by
        have := hdes d visited path; rwa [hcall] at this
      cases oc with
      | some c => simp [checkDepsF, hv, hcall]; exact hsub
      | none =>
        have := ih v2 path
        simpa [checkDepsF, hv, hcall] using fun x hx => this (hsub hx)

lemma checkNode_visited_mono (g : DepGraph) :
    ∀ (fuel : Nat) (name : String) (visited path : List String),
      visited ⊆ (checkNode g fuel name visited path).2 := by
  intro fuel
  induction fuel with
  | zero => intro name visited path; simp [checkNode]
  | succ n ih =>
    intro name visited path
    rw [checkNode]
    cases hg : graphDeps g name with
    | none => intro x hx; simp [List.mem_cons]; right; exact hx
    | some deps =>
      intro x hx
      have hmono := checkDepsF_visited_mono (fun d v p => ih d v p)
      exact hmono deps (name :: visited) (path ++ [name]) (List.mem_cons_of_mem _ hx)

/-! ### Soundness: a reported cycle is a genuine simple cycle -/

/-- Soundness statement for `checkNode` at a given fuel. -/
def SNprop (g : DepGraph) (fuel : Nat) : Prop :=
  ∀ name visited path c v2,
    path.Nodup → (∀ x ∈ path, x ∈ visited) → chainB g path = true →
    name ∉ visited →
    (∀ l, path.getLast? = some l → edgeB g l name = true) →
    checkNode g fuel name visited path = (some c, v2) → renderedCycle g c

/-- Soundness statement for the dependency loop at a given fuel. -/
def SDprop (g : DepGraph) (fuel : Nat) : Prop :=
  ∀ deps visited path nm c v2,
    path.Nodup → (∀ x ∈ path, x ∈ visited) → chainB g path = true →
    path.getLast? = some nm →
    (∀ d ∈ deps, edgeB g nm d = true) →
    checkDepsF (checkNode g fuel) deps visited path = (some c, v2) → renderedCycle g c

lemma SN_zero (g : DepGraph) : SNprop g 0 := by
  intro name visited path c v2 _ _ _ _ _ h
  simp [checkNode] at h

lemma SD_of_SN {g : DepGraph} {fuel : Nat} (hSN : SNprop g fuel) : SDprop g fuel := by
  intro deps
  induction deps with
  | nil =>
    intro visited path nm c v2 _ _ _ _ _ h
    simp [checkDepsF] at h
  | cons d ds ih =>
    intro visited path nm c v2 hnd hsub hchain hlast hdeps h
    by_cases hv : d ∈ visited
    · by_cases hp : d ∈ path
      · rw [checkDepsF, if_pos hv, if_pos hp] at h
        have hc : some (dropUntil d path ++ [d]) = some c := congrArg Prod.fst h
        obtain rfl : dropUntil d path ++ [d] = c := Option.some.inj hc
        obtain ⟨t, hdt⟩ := dropUntil_eq_cons hp
        have hsfx := dropUntil_isSuffix d path
        have hne : dropUntil d path ≠ [] := by rw [hdt]; simp
        have hlast2 : (dropUntil d path).getLast? = some nm :=
          (getLast?_of_isSuffix hsfx hne).trans hlast
        refine ⟨?_, ?_, ?_, ?_⟩
        · rw [hdt]; simp
        · rw [List.getLast?_concat, hdt]; simp
        · refine chainB_append_singleton.mpr ⟨?_, ?_⟩
          · obtain ⟨pre, hpre⟩ := hsfx
            exact @chainB_suffix g pre (dropUntil d path) (by rw [hpre]; exact hchain)
          · intro l hl
            rw [hlast2] at hl
            exact (Option.some.inj hl) ▸ hdeps d (List.mem_cons_self d ds)
        · rw [List.dropLast_concat]
          exact List.Nodup.sublist hsfx.sublist hnd
      · rw [checkDepsF, if_pos hv, if_neg hp] at h
        exact ih visited path nm c v2 hnd hsub hchain hlast
          (fun x hx => hdeps x (List.mem_cons_of_mem _ hx)) h
    · rw [checkDepsF, if_neg hv] at h
      rcases hcall : checkNode g fuel d visited path with ⟨oc, v3⟩
      rw [hcall] at h
      cases oc with
      | some c2 =>
        have hc : some c2 = some c := congrArg Prod.fst h
        obtain rfl : c2 = c := Option.some.inj hc
        exact hSN d visited path c2 v3 hnd hsub hchain hv
          (fun l hl => (Option.some.inj ((hlast.symm.trans hl : some nm = some l))) ▸
            hdeps d (List.mem_cons_self d ds)) hcall
      | none =>
        simp only at h
        have hsub3 : visited ⊆ v3 := by
          have := checkNode_visited_mono g fuel d visited path; rwa [hcall] at this
        exact ih v3 path nm c v2 hnd (fun x hx => hsub3 (hsub x hx)) hchain hlast
          (fun x hx => hdeps x (List.mem_cons_of_mem _ hx)) h

lemma SN_succ {g : DepGraph} {fuel : Nat} (hSD : SDprop g fuel) : SNprop g (fuel + 1) := by
  intro name visited path c v2 hnd hsub hchain hnv hedge h
  rw [checkNode] at h
  cases hg : graphDeps g name with
  | none => rw [hg] at h; simp at h
  | some deps =>
    rw [hg] at h
    have hnp : name ∉ path := fun hx => hnv (hsub name hx)
    have hnd1 : (path ++ [name]).Nodup := by
      rw [List.nodup_append]
      refine ⟨hnd, List.nodup_singleton name, ?_⟩
      intro a ha hb
      rw [List.mem_singleton] at hb
      subst hb
      exact hnp ha
    have hchain1 : chainB g (path ++ [name]) = true :=
      chainB_append_singleton.mpr ⟨hchain, hedge⟩
    refine hSD deps (name :: visited) (path ++ [name]) name c v2 hnd1 ?_ hchain1
      (List.getLast?_concat path) ?_ h
    · intro x hx
      rcases List.mem_append.mp hx with h1 | h1
      · exact List.mem_cons_of_mem _ (hsub x h1)
      · simp [List.mem_singleton.mp h1]
    · intro d hd
      have : depsList g name = deps := by simp [depsList, hg]
      simp [edgeB, this, hd]

lemma checkNode_sound (g : DepGraph) : ∀ fuel : Nat, SNprop g fuel := by
  intro fuel
  induction fuel with
  | zero => exact SN_zero g
  | succ n ih => exact SN_succ (SD_of_SN ih)

/-- Whatever cycle the detection loop of `init` reports is a genuine,
fully rendered simple cycle of the dependency graph. -/
lemma findCycle_sound {g : DepGraph} {fuel : Nat} {c : List String} :
    findCycle g fuel = some c → renderedCycle g c := by
  have main : ∀ ks : List String, findCycleList g fuel ks = some c → renderedCycle g c := by
    intro ks
    induction ks with
    | nil => intro h; simp [findCycleList] at h
    | cons k t ih =>
      intro h
      rw [findCycleList] at h
      rcases hfull : checkNode g fuel k [] [] with ⟨oc, v2⟩
      rw [hfull] at h
      cases oc with
      | none =>
        simp only at h
        exact ih h
      | some c2 =>
        simp only at h
        obtain rfl : c2 = c := Option.some.inj h
        exact checkNode_sound g fuel k [] [] c2 v2 List.nodup_nil (by simp) rfl
          (by simp) (by simp) hfull
  exact main (g.map Prod.fst)

/-! ### Completeness: a graph with a cycle is always reported

The source DFS terminates because every nested recursive call inserts a
fresh name into `visited`; the fuel parameter only has to cover the
number of node occurrences of the graph. -/

/-- All node occurrences of the graph: its keys and every name occurring
in a dependency list. -/
def univList (g : DepGraph) : List String := g.map Prod.fst ++ (g.map Prod.snd).flatten

/-- How many node occurrences are not yet visited — an upper bound on the
remaining DFS nesting depth. -/
def missingCount (g : DepGraph) (visited : List String) : Nat :=
  ((univList g).filter (fun x => !(visited.contains x))).length

lemma key_mem_univList {g : DepGraph} {name : String} {deps : List String}
    (h : graphDeps g name = some deps) : name ∈ univList g := by
  unfold graphDeps at h
  rcases hf : g.find? (fun p => p.1 == name) with _ | p
  · rw [hf] at h; simp at h
  · have hKey : p.1 = name := by simpa using List.find?_some hf
    exact List.mem_append.mpr (Or.inl (hKey ▸ List.mem_map_of_mem Prod.fst
      (List.mem_of_find?_eq_some hf)))

lemma dep_mem_univList {g : DepGraph} {name : String} {deps : List String} {d : String}
    (h : graphDeps g name = some deps) (hd : d ∈ deps) : d ∈ univList g := by
  unfold graphDeps at h
  rcases hf : g.find? (fun p => p.1 == name) with _ | p
  · rw [hf] at h; simp at h
  · rw [hf] at h
    have hp2 : p.2 = deps := by simpa using h
    refine List.mem_append.mpr (Or.inr (List.mem_flatten.mpr ⟨p.2, ?_, hp2 ▸ hd⟩))
    exact List.mem_map_of_mem Prod.snd (List.mem_of_find?_eq_some hf)

lemma filter_length_le_of_imp {p q : String → Bool} (himp : ∀ x, q x = true → p x = true) :
    ∀ l : List String, (l.filter q).length ≤ (l.filter p).length := by
  intro l
  induction l with
  | nil => simp
  | cons x xs ih =>
    by_cases hq : q x = true
    · rw [List.filter_cons_of_pos hq, List.filter_cons_of_pos (himp x hq)]
      simpa using ih
    · rw [List.filter_cons_of_neg (by simpa using hq)]
      by_cases hp : p x = true
      · rw [List.filter_cons_of_pos hp]
        exact le_trans ih (by simp)
      · rw [List.filter_cons_of_neg (by simpa using hp)]
        exact ih

lemma filter_length_lt_of_imp {p q : String → Bool} {a : String}
    (himp : ∀ x, q x = true → p x = true) (hpa : p a = true) (hqa : q a = false) :
    ∀ l : List String, a ∈ l → (l.filter q).length < (l.filter p).length := by
  intro l
  induction l with
  | nil => intro h; cases h
  | cons x xs ih =>
    intro hmem
    by_cases hx : x = a
    · subst hx
      rw [List.filter_cons_of_pos hpa, List.filter_cons_of_neg (by simp [hqa])]
      exact Nat.lt_succ_of_le (filter_length_le_of_imp himp xs)
    · have hmem2 : a ∈ xs := by
        rcases List.mem_cons.mp hmem with h1 | h1
        · exact absurd h1.symm hx
        · exact h1
      by_cases hq : q x = true
      · rw [List.filter_cons_of_pos hq, List.filter_cons_of_pos (himp x hq)]
        simpa using ih hmem2
      · rw [List.filter_cons_of_neg (by simpa using hq)]
        by_cases hp : p x = true
        · rw [List.filter_cons_of_pos hp]
          exact lt_trans (ih hmem2) (by simp)
        · rw [List.filter_cons_of_neg (by simpa using hp)]
          exact ih hmem2

lemma missingCount_lt {g : DepGraph} {name : String} {visited : List String}
    (hu : name ∈ univList g) (hnv : name ∉ visited) :
    missingCount g (name :: visited) < missingCount g visited := by
  refine filter_length_lt_of_imp ?_ ?_ ?_ (univList g) hu
  · intro x hx
    have hx2 : x ∉ name :: visited := by simpa using hx
    simpa using fun hm => hx2 (List.mem_cons_of_mem _ hm)
  · simpa using hnv
  · simp

lemma missingCount_mono {g : DepGraph} {v1 v2 : List String} (h : v1 ⊆ v2) :
    missingCount g v2 ≤ missingCount g v1 := by
  refine filter_length_le_of_imp ?_ (univList g)
  intro x hx
  have hx2 : x ∉ v2 := by simpa using hx
  simpa using fun hm => hx2 (h hm)

lemma missingCount_zero_mem {g : DepGraph} {visited : List String}
    (h : missingCount g visited = 0) {x : String} (hx : x ∈ univList g) : x ∈ visited := by
  by_contra hnx
  have : x ∈ (univList g).filter (fun y => !(visited.contains y)) :=
    List.mem_filter.mpr ⟨hx, by simpa using hnx⟩
  rw [List.length_eq_zero.mp h] at this
  cases this

/-- `x` is finished for the DFS: visited and no longer on the path. -/
def BlackIn (visited path : List String) (x : String) : Prop := x ∈ visited ∧ x ∉ path

/-- Every dependency of a finished node is finished. -/
def ClosedB (g : DepGraph) (visited path : List String) : Prop :=
  ∀ u, BlackIn visited path u → ∀ d ∈ depsList g u, BlackIn visited path d

/-- No rendered simple cycle consists entirely of finished nodes. -/
def NoCycB (g : DepGraph) (visited path : List String) : Prop :=
  ∀ c, renderedCycle g c → ¬ (∀ x ∈ c, BlackIn visited path x)

lemma chain_pred_aux {g : DepGraph} {x : String} :
    ∀ (l : List String) (a : String), chainB g (a :: l) = true → x ∈ l →
      ∃ u ∈ a :: l, edgeB g u x = true := by
  intro l
  induction l with
  | nil => intro a _ hx; cases hx
  | cons b t ih =>
    intro a hch hx
    rw [chainB, Bool.and_eq_true] at hch
    rcases List.mem_cons.mp hx with h1 | h1
    · exact ⟨a, List.mem_cons_self a _, h1 ▸ hch.1⟩
    · obtain ⟨u, hu, he⟩ := ih b hch.2 h1
      exact ⟨u, List.mem_cons_of_mem a hu, he⟩

/-- Every node of a rendered cycle has a predecessor on the cycle. -/
lemma cycle_pred {g : DepGraph} {c : List String} {x : String}
    (hc : renderedCycle g c) (hx : x ∈ c) : ∃ u ∈ c, edgeB g u x = true := by
  obtain ⟨hlen, hhl, hch, _⟩ := hc
  cases c with
  | nil => cases hx
  | cons a rest =>
    have hrest : rest ≠ [] := by
      intro hr; rw [hr] at hlen; simp at hlen
    have hx' : x ∈ rest := by
      rcases List.mem_cons.mp hx with h1 | h1
      · have hgl : (a :: rest).getLast? = rest.getLast? := by
          cases rest with
          | nil => exact absurd rfl hrest
          | cons b t => simp [List.getLast?_cons_cons]
        rw [List.head?_cons, hgl] at hhl
        rw [h1]
        exact List.mem_of_mem_getLast? hhl.symm
      · exact h1
    exact chain_pred_aux rest a hch hx'

lemma chain_walk {g : DepGraph} {S : List String}
    (hclosed : ∀ u ∈ S, ∀ d ∈ depsList g u, d ∈ S) :
    ∀ (c : List String) (a : String), chainB g c = true → c.head? = some a → a ∈ S →
      ∀ x ∈ c, x ∈ S := by
  intro c
  induction c with
  | nil => intro a _ _ _ x hx; cases hx
  | cons a' t ih =>
    intro a hch hhd ha x hx
    have he : a' = a := Option.some.inj hhd
    have ha2 : a' ∈ S := by rw [he]; exact ha
    rcases List.mem_cons.mp hx with h1 | h1
    · rw [h1]; exact ha2
    · cases t with
      | nil => cases h1
      | cons b t2 =>
        rw [chainB, Bool.and_eq_true] at hch
        have hb : b ∈ depsList g a' := by
          have := hch.1
          simpa [edgeB] using this
        exact ih b hch.2 rfl (hclosed a' ha2 b hb) x h1

/-- Completeness invariant for `checkNode`: a cycle-free finished region
stays cycle-free and grows to swallow the root. -/
def CNprop (g : DepGraph) (fuel : Nat) : Prop :=
  ∀ (name : String) (visited path v2 : List String),
    (∀ x ∈ path, x ∈ visited) → ClosedB g visited path → NoCycB g visited path →
    name ∉ visited → name ∈ univList g →
    missingCount g visited ≤ fuel →
    checkNode g fuel name visited path = (none, v2) →
    visited ⊆ v2 ∧ name ∈ v2 ∧
    (∀ x ∈ v2, x ∉ visited → x ∉ path ∧ x ∈ univList g) ∧
    ClosedB g v2 path ∧ NoCycB g v2 path

/-- Completeness invariant for the dependency loop. -/
def CDprop (g : DepGraph) (fuel : Nat) : Prop :=
  ∀ (deps visited path v2 : List String),
    (∀ x ∈ path, x ∈ visited) → ClosedB g visited path → NoCycB g visited path →
    (∀ d ∈ deps, d ∈ univList g) →
    missingCount g visited ≤ fuel →
    checkDepsF (checkNode g fuel) deps visited path = (none, v2) →
    visited ⊆ v2 ∧
    (∀ x ∈ v2, x ∉ visited → x ∉ path ∧ x ∈ univList g) ∧
    ClosedB g v2 path ∧ NoCycB g v2 path ∧
    (∀ d ∈ deps, d ∈ v2 ∧ d ∉ path)

lemma CN_zero (g : DepGraph) : CNprop g 0 := by
  intro name visited path v2 _ _ _ hnv hu hfuel _
  exact absurd (missingCount_zero_mem (Nat.le_zero.mp hfuel) hu) hnv

lemma CD_of_CN {g : DepGraph} {fuel : Nat} (hCN : CNprop g fuel) : CDprop g fuel := by
  intro deps
  induction deps with
  | nil =>
    intro visited path v2 hsub hcl hnc _ _ h
    obtain rfl : visited = v2 := congrArg Prod.snd h
    exact ⟨fun x hx => hx, fun x hx hnx => absurd hx hnx, hcl, hnc, by simp⟩
  | cons d ds ih =>
    intro visited path v2 hsub hcl hnc hdu hfuel h
    by_cases hv : d ∈ visited
    · by_cases hp : d ∈ path
      · rw [checkDepsF, if_pos hv, if_pos hp] at h
        exact absurd (congrArg Prod.fst h) (by simp)
      · rw [checkDepsF, if_pos hv, if_neg hp] at h
        obtain ⟨h1, h2, h3, h4, h5⟩ := ih visited path v2 hsub hcl hnc
          (fun x hx => hdu x (List.mem_cons_of_mem _ hx)) hfuel h
        exact ⟨h1, h2, h3, h4, fun x hx => by
          rcases List.mem_cons.mp hx with h6 | h6
          · exact h6 ▸ ⟨h1 hv, hp⟩
          · exact h5 x h6⟩
    · rw [checkDepsF, if_neg hv] at h
      rcases hcall : checkNode g fuel d visited path with ⟨oc, v3⟩
      rw [hcall] at h
      cases oc with
      | some c2 => exact absurd (congrArg Prod.fst h) (by simp)
      | none =>
        simp only at h
        obtain ⟨p1, p2, p3, p4, p5⟩ := hCN d visited path v3 hsub hcl hnc hv
          (hdu d (List.mem_cons_self d ds)) hfuel hcall
        obtain ⟨q1, q2, q3, q4, q5⟩ := ih v3 path v2 (fun x hx => p1 (hsub x hx)) p4 p5
          (fun x hx => hdu x (List.mem_cons_of_mem _ hx))
          (le_trans (missingCount_mono p1) hfuel) h
        refine ⟨fun x hx => q1 (p1 hx), ?_, q3, q4, ?_⟩
        · intro x hx hnx
          by_cases hx3 : x ∈ v3
          · exact p3 x hx3 hnx
          · exact q2 x hx hx3
        · intro x hx
          rcases List.mem_cons.mp hx with h6 | h6
          · subst h6
            exact ⟨q1 p2, (p3 x p2 hv).1⟩
          · exact q5 x h6

lemma CN_succ {g : DepGraph} {fuel : Nat} (hCD : CDprop g fuel) : CNprop g (fuel + 1) := by
  intro name visited path v2 hsub hcl hnc hnv hu hfuel h
  rw [checkNode] at h
  cases hg : graphDeps g name with
  | none =>
    rw [hg] at h
    obtain rfl : name :: visited = v2 := congrArg Prod.snd h
    have hdeps0 : depsList g name = [] := by simp [depsList, hg]
    have hnp : name ∉ path := fun hx => hnv (hsub name hx)
    refine ⟨fun x hx => List.mem_cons_of_mem _ hx, List.mem_cons_self _ _, ?_, ?_, ?_⟩
    · intro x hx hnx
      rcases List.mem_cons.mp hx with h1 | h1
      · exact h1 ▸ ⟨hnp, hu⟩
      · exact absurd h1 hnx
    · intro u hb d hd
      rcases List.mem_cons.mp hb.1 with h1 | h1
      · rw [h1, hdeps0] at hd; cases hd
      · obtain ⟨hd1, hd2⟩ := hcl u ⟨h1, hb.2⟩ d hd
        exact ⟨List.mem_cons_of_mem _ hd1, hd2⟩
    · intro c hcy hall
      by_cases hnm : name ∈ c
      · obtain ⟨u, huc, hue⟩ := cycle_pred hcy hnm
        rcases List.mem_cons.mp (hall u huc).1 with h1 | h1
        · rw [h1, edgeB, hdeps0] at hue; simp at hue
        · have : BlackIn visited path name :=
            hcl u ⟨h1, (hall u huc).2⟩ name (by simpa [edgeB] using hue)
          exact hnv this.1
      · refine hnc c hcy (fun x hx => ?_)
        have hb := hall x hx
        rcases List.mem_cons.mp hb.1 with h1 | h1
        · exact absurd (h1 ▸ hx) hnm
        · exact ⟨h1, hb.2⟩
  | some deps =>
    rw [hg] at h
    have hnp : name ∉ path := fun hx => hnv (hsub name hx)
    have hdeps : depsList g name = deps := by simp [depsList, hg]
    have hnmem1 : name ∈ path ++ [name] := List.mem_append.mpr (Or.inr (List.mem_singleton.mpr rfl))
    have hpre1 : ∀ x ∈ path ++ [name], x ∈ name :: visited := by
      intro x hx
      rcases List.mem_append.mp hx with h1 | h1
      · exact List.mem_cons_of_mem _ (hsub x h1)
      · simp [List.mem_singleton.mp h1]
    have hpre2 : ClosedB g (name :: visited) (path ++ [name]) := by
      intro u hb d hd
      rcases List.mem_cons.mp hb.1 with h1 | h1
      · exact absurd (h1 ▸ hnmem1) hb.2
      · have hb0 : BlackIn visited path u := ⟨h1, fun hx => hb.2 (List.mem_append.mpr (Or.inl hx))⟩
        obtain ⟨hd1, hd2⟩ := hcl u hb0 d hd
        have hdne : d ≠ name := fun he => hnv (he ▸ hd1)
        refine ⟨List.mem_cons_of_mem _ hd1, fun hx => ?_⟩
        rcases List.mem_append.mp hx with h2 | h2
        · exact hd2 h2
        · exact hdne (List.mem_singleton.mp h2)
    have hpre3 : NoCycB g (name :: visited) (path ++ [name]) := by
      intro c hcy hall
      refine hnc c hcy (fun x hx => ?_)
      have hb := hall x hx
      have hxne : x ≠ name := fun he => hb.2 (he ▸ hnmem1)
      rcases List.mem_cons.mp hb.1 with h1 | h1
      · exact absurd h1 hxne
      · exact ⟨h1, fun hp => hb.2 (List.mem_append.mpr (Or.inl hp))⟩
    have hfuel2 : missingCount g (name :: visited) ≤ fuel :=
      Nat.lt_succ_iff.mp (lt_of_lt_of_le (missingCount_lt hu hnv) hfuel)
    obtain ⟨q1, q2, q3, q4, q5⟩ := hCD deps (name :: visited) (path ++ [name]) v2
      hpre1 hpre2 hpre3 (fun x hx => dep_mem_univList hg hx) hfuel2 h
    have hnv2 : name ∈ v2 := q1 (List.mem_cons_self _ _)
    refine ⟨fun x hx => q1 (List.mem_cons_of_mem _ hx), hnv2, ?_, ?_, ?_⟩
    · intro x hx hnx
      by_cases hxn : x = name
      · exact hxn ▸ ⟨hnp, hu⟩
      · have hx1 : x ∉ name :: visited := by
          intro hc1
          rcases List.mem_cons.mp hc1 with h1 | h1
          · exact hxn h1
          · exact hnx h1
        obtain ⟨hq1, hq2⟩ := q2 x hx hx1
        exact ⟨fun hp => hq1 (List.mem_append.mpr (Or.inl hp)), hq2⟩
    · intro u hb d hd
      by_cases hun : u = name
      · subst hun
        rw [hdeps] at hd
        obtain ⟨hd1, hd2⟩ := q5 d hd
        exact ⟨hd1, fun hp => hd2 (List.mem_append.mpr (Or.inl hp))⟩
      · have hb1 : BlackIn v2 (path ++ [name]) u := by
          refine ⟨hb.1, fun hx => ?_⟩
          rcases List.mem_append.mp hx with h1 | h1
          · exact hb.2 h1
          · exact hun (List.mem_singleton.mp h1)
        obtain ⟨hd1, hd2⟩ := q3 u hb1 d hd
        exact ⟨hd1, fun hp => hd2 (List.mem_append.mpr (Or.inl hp))⟩
    · intro c hcy hall
      by_cases hnm : name ∈ c
      · obtain ⟨u, huc, hue⟩ := cycle_pred hcy hnm
        by_cases hun : u = name
        · have : name ∈ deps := by
            rw [hun] at hue
            rw [edgeB, hdeps] at hue
            simpa using hue
          exact (q5 name this).2 hnmem1
        · have hb1 : BlackIn v2 (path ++ [name]) u := by
            refine ⟨(hall u huc).1, fun hx => ?_⟩
            rcases List.mem_append.mp hx with h1 | h1
            · exact (hall u huc).2 h1
            · exact hun (List.mem_singleton.mp h1)
          have : BlackIn v2 (path ++ [name]) name :=
            q3 u hb1 name (by simpa [edgeB] using hue)
          exact this.2 hnmem1
      · refine q4 c hcy (fun x hx => ?_)
        have hb := hall x hx
        have hxne : x ≠ name := fun he => hnm (he ▸ hx)
        refine ⟨hb.1, fun hp => ?_⟩
        rcases List.mem_append.mp hp with h1 | h1
        · exact hb.2 h1
        · exact hxne (List.mem_singleton.mp h1)

lemma checkNode_complete (g : DepGraph) : ∀ fuel : Nat, CNprop g fuel := by
  intro fuel
  induction fuel with
  | zero => exact CN_zero g
  | succ n ih => exact CN_succ (CD_of_CN ih)

lemma findCycleList_none {g : DepGraph} {fuel : Nat} :
    ∀ {ks : List String}, findCycleList g fuel ks = none →
      ∀ k ∈ ks, (checkNode g fuel k [] []).1 = none := by
  intro ks
  induction ks with
  | nil => intro _ k hk; cases hk
  | cons k0 t ih =>
    intro h k hk
    rw [findCycleList] at h
    rcases hroot : (checkNode g fuel k0 [] []).1 with _ | c2
    · rw [hroot] at h
      rcases List.mem_cons.mp hk with h1 | h1
      · exact h1 ▸ hroot
      · exact ih h k h1
    · rw [hroot] at h; cases h

/-- With enough fuel (the number of node occurrences suffices), the
detection loop of `init` reports a cycle whenever the dependency graph
contains one. -/
lemma findCycle_complete {g : DepGraph} {fuel : Nat}
    (hfuel : (univList g).length ≤ fuel) {c0 : List String} (hc : renderedCycle g c0) :
    ∃ c, findCycle g fuel = some c := by
  rcases hfind : findCycle g fuel with _ | c
  · exfalso
    obtain ⟨hlen, hhl, hch, hnd⟩ := hc
    obtain ⟨a, rest, rfl⟩ : ∃ a rest, c0 = a :: rest := by
      cases c0 with
      | nil => simp at hlen
      | cons a rest => exact ⟨a, rest, rfl⟩
    obtain ⟨b, t, rfl⟩ : ∃ b t, rest = b :: t := by
      cases rest with
      | nil => simp at hlen
      | cons b t => exact ⟨b, t, rfl⟩
    have hedge : edgeB g a b = true := by
      rw [chainB, Bool.and_eq_true] at hch
      exact hch.1
    have hbmem : b ∈ depsList g a := by simpa [edgeB] using hedge
    have hga : ∃ deps, graphDeps g a = some deps := by
      rcases hg : graphDeps g a with _ | deps
      · rw [depsList, hg] at hbmem; cases hbmem
      · exact ⟨deps, rfl⟩
    obtain ⟨deps, hga⟩ := hga
    have hakey : a ∈ g.map Prod.fst := by
      unfold graphDeps at hga
      rcases hf : g.find? (fun p => p.1 == a) with _ | p
      · rw [hf] at hga; simp at hga
      · have : p.1 = a := by simpa using (List.find?_some hf)
        exact this ▸ List.mem_map_of_mem Prod.fst (List.mem_of_find?_eq_some hf)
    have hnone := findCycleList_none hfind a hakey
    rcases hfull : checkNode g fuel a [] [] with ⟨oc, v2⟩
    rw [hfull] at hnone
    simp only at hnone
    subst hnone
    have hmiss : missingCount g [] ≤ fuel := by
      unfold missingCount
      rw [List.filter_eq_self.mpr (by intro x _; simp)]
      exact hfuel
    obtain ⟨_, hav2, _, hclosed, hnocyc⟩ := checkNode_complete g fuel a [] [] v2
      (by simp) (fun u hb => absurd hb.1 (List.not_mem_nil u))
      (fun c hcy hall => by
        obtain ⟨hl2, _, _, _⟩ := hcy
        cases c with
        | nil => simp at hl2
        | cons y ys => exact List.not_mem_nil y (hall y (List.mem_cons_self y ys)).1)
      (List.not_mem_nil a) (List.mem_append.mpr (Or.inl hakey)) hmiss hfull
    have hwalk : ∀ x ∈ a :: b :: t, x ∈ v2 := by
      refine chain_walk ?_ (a :: b :: t) a hch rfl hav2
      intro u hu d hd
      exact (hclosed u ⟨hu, List.not_mem_nil u⟩ d hd).1
    exact hnocyc (a :: b :: t) ⟨hlen, hhl, hch, hnd⟩
      (fun x hx => ⟨hwalk x hx, List.not_mem_nil x⟩)
  · exact ⟨c, rfl⟩

/-! ## Plugin metadata and the two-phase load (plugin_manager.py lines 84-386)

Phase 1 (`_scan_plugins_metadata`) collects per-plugin metadata and
builds `DEPENDENCY_GRAPH`; phase 2 (`_load_plugins_by_dependency`) loads
plugins depth-first along their dependencies.  Module import, file
system access and handler binding are impure; they enter the model as
explicit data: the content of each plugin directory is a
`PluginDirectory` record and the success of phase-2 handler binding is
an oracle `binds : String → Bool`. -/

/-- Result of evaluating a Python expression: a value, or a raised
exception carrying its rendered message. -/
inductive PyEval (α : Type) where
  | ok (val : α)
  | exc (msg : String)
deriving DecidableEq

/-- One declared dependency `{name, min_version, max_version}` of a
plugin descriptor.  `min_version`/`max_version` are `Option` because the
source reads them with `dep.get('min_version', '0.0.0')` and
`dep.get('max_version', None)` (plugin_manager.py lines 93-94). -/
structure DepSpec where
  name : String
  min_version : Option String
  max_version : Option String
deriving DecidableEq

/-- In-memory plugin metadata (the `PLUGIN_META` / converted
`adapter.json` mapping).  `version` is `Option` because a descriptor may
omit it; the scan defaults it to `"1.0.0"` (plugin_manager.py lines
276-279).  The required-field presence check of lines 271-274 is a
dict-key check; a `PluginMeta` record always carries the required
fields, so that check is a no-op in the model. -/
structure PluginMeta where
  name : String
  version : Option String
  commands : List String
  handler : String
  chat_type : List String
  permission : String
  is_at_required : Bool
  dependencies : List DepSpec
deriving DecidableEq

/-- The mapping parsed from an `adapter.json` file, all fields optional
(`adapter_data.get(...)` with defaults, plugin_manager.py lines
113-161).  A dict-valued `commands` entry is modelled by the list of its
keys, which is what `_convert_adapter_to_meta` extracts. -/
structure AdapterData where
  name : Option String
  version : Option String
  commands : Option (List String)
  handler : Option String
  chat_type : Option (List String)
  permission : Option String
  is_at_required : Option Bool
  dependencies : Option (List DepSpec)
deriving DecidableEq

/-- `PluginManager._convert_adapter_to_meta` (plugin_manager.py lines
113-161): field-by-field defaulting of an adapter descriptor. -/
def convert_adapter_to_meta (ad : AdapterData) (plugin_name : String) : PluginMeta where
  name := ad.name.getD plugin_name
  version := some (ad.version.getD "1.0.0")
  commands := ad.commands.getD []
  handler := ad.handler.getD ("handle_" ++ ((plugin_name.replace "_plugin" "").replace "-" "_"))
  chat_type := ad.chat_type.getD ["private", "group"]
  permission := ad.permission.getD "all"
  is_at_required := ad.is_at_required.getD false
  dependencies := ad.dependencies.getD []

/-- Python evaluation of the expression `json.load(f)` at
plugin_manager.py line 238.  The module's imports (lines 1-7) are `os`,
`importlib.util`, names from `typing`, `re` and the relative imports
`.utils` and `.config`; the name `json` is never imported, so evaluating
the expression raises `NameError` before the file is parsed, whatever
the file contains. -/
def jsonLoadCall (_fileText : String) : PyEval AdapterData :=
  .exc "NameError: name json is not defined"

/-- What phase 1 finds inside one immediate subdirectory of the plugin
directory (plugin_manager.py lines 213-263).  `initMeta` is the
`PLUGIN_META` attribute obtained by importing and executing the
directory's `__init__.py` — obtaining it runs plugin module code — and
is `none` when the executed module lacks the attribute. -/
structure PluginDirectory where
  dirName : String
  hasInitPy : Bool
  hasAdapterJson : Bool
  adapterText : String
  initMeta : Option PluginMeta

/-- The per-directory body of `_scan_plugins_metadata`
(plugin_manager.py lines 220-298): prefer `adapter.json` (whose read
always fails with `NameError`, caught at lines 243-244), fall back to
executing `__init__.py`, skip the directory when neither yields
metadata, and default a missing `version` to `"1.0.0"`. -/
def scanPluginDir (d : PluginDirectory) : Option PluginMeta :=
  if !d.hasInitPy && !d.hasAdapterJson then none
  else
    let adapterMeta : Option PluginMeta :=
      if d.hasAdapterJson then
        match jsonLoadCall d.adapterText with
        | .ok ad => some (convert_adapter_to_meta ad d.dirName)
        | .exc _ => none
      else none
    let chosen : Option PluginMeta :=
      match adapterMeta with
      | some m => some m
      | none => if d.hasInitPy then d.initMeta else none
    match chosen with
    | none => none
    | some m => some { m with version := some (m.version.getD "1.0.0") }

/-- Phase 1 over the whole plugin directory: every subdirectory is
scanned independently; a failing directory is skipped (`continue`) and
cannot prevent metadata collection for the others.  The result is the
`plugins_meta` dict, keyed by directory name in listing order. -/
def scanBatch (dirs : List PluginDirectory) : List (String × PluginMeta) :=
  dirs.filterMap (fun d => (scanPluginDir d).map (fun m => (d.dirName, m)))

/-- `DEPENDENCY_GRAPH` as built during the scan (plugin_manager.py lines
284-288): directory name to list of declared dependency names. -/
def buildGraph (pm : List (String × PluginMeta)) : DepGraph :=
  pm.map (fun p => (p.1, p.2.dependencies.map DepSpec.name))

/-- Python truthiness of a string: non-empty strings are truthy. -/
def pyTruthyStr (s : String) : Bool := !(s == "")

/-- `PluginManager.check_plugin_dependencies` (plugin_manager.py lines
84-111): every declared dependency must be loaded, with a version at
least `min_version` (default `"0.0.0"`) and — when a truthy
`max_version` is given (`if max_version and ...`, line 108) — at most
`max_version`. -/
def check_plugin_dependencies (loadedVersions : List (String × String))
    (dependencies : List DepSpec) : Bool :=
  dependencies.all fun dep =>
    match (loadedVersions.find? (fun p => p.1 == dep.name)).map Prod.snd with
    | none => false
    | some loaded_version =>
      if compare_versions loaded_version (dep.min_version.getD "0.0.0") < 0 then false
      else
        match dep.max_version with
        | none => true
        | some mv =>
          if pyTruthyStr mv then
            if compare_versions loaded_version mv > 0 then false else true
          else true

/-- The mutable state of phase 2: the `loaded` set, `PLUGIN_REGISTRY`
(as the list of registered plugin keys in registration order) and
`LOADED_PLUGIN_VERSIONS`. -/
structure LoadState where
  loaded : List String
  registry : List String
  loadedVersions : List (String × String)
deriving DecidableEq

/-- The `for dep in dependencies` loop of `load_plugin`
(plugin_manager.py lines 317-322), parametrised by the recursive call:
load every not-yet-loaded dependency first; a failing dependency fails
the dependent immediately. -/
def loadDepsF (descend : String → LoadState → Bool × LoadState) :
    List DepSpec → LoadState → Bool × LoadState
  | [], st => (true, st)
  | dep :: rest, st =>
    if dep.name ∈ st.loaded then loadDepsF descend rest st
    else
      match descend dep.name st with
      | (false, st2) => (false, st2)
      | (true, st2) => loadDepsF descend rest st2

/-- `load_plugin` inside `_load_plugins_by_dependency` (plugin_manager.py
lines 307-381): skip if already loaded, fail if the name is not in the
batch, recursively load the declared dependencies, check the version
ranges, then bind the handler and register.  `binds name` models the
impure lines 332-360 (core module file exists, imports, and exposes the
declared handler symbol as a callable); registration (lines 362-370)
appends to the registry and records the version.  The recursion is
fuelled; the source would recurse forever on a cyclic graph, which is
why `init` only reaches phase 2 after cycle detection passes. -/
def load_plugin (pm : List (String × PluginMeta)) (binds : String → Bool) :
    Nat → String → LoadState → Bool × LoadState
  | 0, _, st => (false, st)
  | Nat.succ fuel, name, st =>
    if name ∈ st.loaded then (true, st)
    else
      match (pm.find? (fun p => p.1 == name)).map Prod.snd with
      | none => (false, st)
      | some meta =>
        match loadDepsF (load_plugin pm binds fuel) meta.dependencies st with
        | (false, st2) => (false, st2)
        | (true, st2) =>
          if check_plugin_dependencies st2.loadedVersions meta.dependencies then
            if binds name then
              (true, { loaded := name :: st2.loaded,
                       registry := st2.registry ++ [name],
                       loadedVersions := (name, meta.version.getD "1.0.0") :: st2.loadedVersions })
            else (false, st2)
          else (false, st2)

/-- The driver loop of phase 2 (plugin_manager.py lines 383-386): try to
load every plugin of the batch, in batch order, ignoring per-plugin
failure results. -/
def loadAll (pm : List (String × PluginMeta)) (binds : String → Bool) (fuel : Nat) : LoadState :=
  pm.foldl (fun st p => if p.1 ∈ st.loaded then st else (load_plugin pm binds fuel p.1 st).2)
    ⟨[], [], []⟩

/-- `PluginManager.init` (plugin_manager.py lines 163-199): clear the
global tables, collect metadata (phase 1), run cycle detection on every
graph key, and — decisively — `return` at line 186 as soon as any cycle
is reported, so phase 2 never runs and `PLUGIN_REGISTRY` stays empty;
otherwise run phase 2.  The result is the final `PLUGIN_REGISTRY` as the
list of registered plugin keys in registration order. -/
def initRegistry (dirs : List PluginDirectory) (binds : String → Bool) (fuel : Nat) : List String :=
  let pm := scanBatch dirs
  let g := buildGraph pm
  match findCycle g fuel with
  | some _ => []
  | none => (loadAll pm binds fuel).registry

/-- `PluginManager.reload_plugin` (plugin_manager.py lines 438-473).  The
body assigns `PLUGIN_REGISTRY = [p for p in PLUGIN_REGISTRY ...]` at
line 456 without a `global` declaration (the comment at line 455 even
asserts none is needed), so Python scoping makes `PLUGIN_REGISTRY` a
local variable of the entire function body; the read
`for plugin in PLUGIN_REGISTRY` at line 444 therefore raises
`UnboundLocalError` before anything else runs — for every plugin name
and every registry state — and it does so outside the `try` block that
only starts at line 453, so the exception propagates to the caller
instead of a boolean being returned. -/
def reload_plugin (_registry : List String) (_plugin_name : String) : PyEval Bool :=
  .exc "UnboundLocalError: local variable PLUGIN_REGISTRY referenced before assignment"

/-! ## Command matcher (plugin_manager.py lines 388-414) -/

/-- A `PLUGIN_REGISTRY` entry, restricted to the metadata fields that
`get_matched_plugin` consults. -/
structure RegPlugin where
  name : String
  version : String
  commands : List String
  chat_type : List String
  permission : String
  is_at_required : Bool
deriving DecidableEq

/-- The first list is a character-by-character initial segment of the
second. -/
def startsWithSeq : List Char → List Char → Bool
  | [], _ => true
  | _ :: _, [] => false
  | a :: as, b :: bs => a == b && startsWithSeq as bs

/-- `needle` occurs as a contiguous run somewhere in the second list. -/
def containsSeq (needle : List Char) : List Char → Bool
  | [] => needle.isEmpty
  | c :: rest => startsWithSeq needle (c :: rest) || containsSeq needle rest

/-- Python's substring test `sub in s` on strings: a case-sensitive,
unanchored contiguous-substring match. -/
def pyIn (sub s : String) : Bool := containsSeq sub.data s.data

/-- `PluginManager.get_matched_plugin` (plugin_manager.py lines
388-414): walk `PLUGIN_REGISTRY` in registration order and return the
first plugin that survives the four `continue` filters — chat scope
(line 395), master-only permission against `MASTER_QQ` (line 399),
group-chat mention requirement (line 403) and the trigger-substring
test `cmd in raw_msg` (line 407) — or `None` when no entry does. -/
def get_matched_plugin (masterQQ : String) (raw_msg chat_type sender_id : String)
    (is_at_bot : Bool) : List RegPlugin → Option RegPlugin
  | [] => none
  | p :: rest =>
    if chat_type ∉ p.chat_type then
      get_matched_plugin masterQQ raw_msg chat_type sender_id is_at_bot rest
    else if p.permission == "master" && sender_id != masterQQ then
      get_matched_plugin masterQQ raw_msg chat_type sender_id is_at_bot rest
    else if chat_type == "group" && p.is_at_required && !is_at_bot then
      get_matched_plugin masterQQ raw_msg chat_type sender_id is_at_bot rest
    else if (p.commands.filter (fun cmd => pyIn cmd raw_msg)).isEmpty then
      get_matched_plugin masterQQ raw_msg chat_type sender_id is_at_bot rest
    else some p

/-- The four filters in the fixed sequence stated by the specification
(spec §4.3), as a predicate on one registry entry: declared scope,
master-only restriction, group mention requirement, and an unanchored
case-sensitive trigger-substring occurrence. -/
def specPassesFilters (masterQQ raw_msg chat_type sender_id : String) (is_at_bot : Bool)
    (p : RegPlugin) : Bool :=
  decide (chat_type ∈ p.chat_type) &&
  (!(p.permission == "master") || sender_id == masterQQ) &&
  (!(chat_type == "group" && p.is_at_required) || is_at_bot) &&
  p.commands.any (fun cmd => pyIn cmd raw_msg)

/-! ## Rate limiter (security_manager.py lines 82-124) -/

/-- `RateLimiter.check_rate_limit` (security_manager.py lines 94-124)
for a single key: prune the key's timestamps to the one-hour horizon,
deny when 60 requests already sit in the sliding 60-second window or
1000 in the 3600-second window, otherwise append the current timestamp
and allow.  Returns `((allowed, error message), updated timestamps)`.
Clock readings (`time.time()` floats) are modelled as integers; every
comparison and threshold of the source is carried over verbatim. -/
def check_rate_limit (now : Int) (requests : List Int) : (Bool × Option String) × List Int :=
  let requests := requests.filter (fun t => now - t < 3600)
  let minute_requests := requests.filter (fun t => now - t < 60)
  if 60 ≤ minute_requests.length then
    ((false, some "requests too frequent: at most 60 per minute"), requests)
  else if 1000 ≤ requests.length then
    ((false, some "requests too frequent: at most 1000 per hour"), requests)
  else ((true, none), requests ++ [now])

/-- Feed a sequence of requests for one key through the limiter,
collecting the verdicts and the final timestamp list. -/
def runReqs : List Int → List Int → List Bool × List Int
  | [], st => ([], st)
  | t :: ts, st =>
    let step := check_rate_limit t st
    let rest := runReqs ts step.2
    (step.1.1 :: rest.1, rest.2)

/-! ## The dispatch pipeline's rate-limit gate (handler.py lines 24-27, 101-106) -/

/-- Python truthiness of the `(allowed, message)` pair returned by
`check_rate_limit`: the truth value of a tuple is whether it is
non-empty, and a 2-tuple never is, so the pair is always truthy —
whatever its components. -/
def pyTruthyPair (_result : Bool × Option String) : Bool := true

/-- The guard `if not security_manager.check_rate_limit(key):` of
`callback_base` (handler.py line 25 for the client IP, line 102 for
`user_<sender_id>`): the denial branch — warn, answer 429 or notify the
sender, and stop before any plugin code — runs exactly when the returned
pair is falsy under Python truthiness. -/
def rateGateBlocks (now : Int) (requests : List Int) : Bool :=
  !(pyTruthyPair (check_rate_limit now requests).1)

/-! ## Input validation and permission evaluation (security_manager.py lines 30-33, 139-251) -/

/-- The character class `[1-9]`. -/
def isNonZeroDigit (c : Char) : Bool := '1' ≤ c && c ≤ '9'

/-- `[1-9]\d{4,14}` matched against an entire character list: a leading
non-zero digit followed by 4 to 14 further digits. -/
def qqCore : List Char → Bool
  | [] => false
  | c :: rest =>
    isNonZeroDigit c && decide (4 ≤ rest.length) && decide (rest.length ≤ 14) &&
      rest.all Char.isDigit

/-- `InputValidator.is_valid_qq` (security_manager.py lines 30-33):
`bool(re.match(r'^[1-9]\d{4,14}$', user_id))`.  Python's `$` also
matches just before a single trailing newline, so one trailing `'\n'`
is tolerated; `\d` is modelled as the ASCII digits (Python's `\d` also
accepts other Unicode decimal digits, which never occur in QQ ids). -/
def is_valid_qq (user_id : String) : Bool :=
  qqCore user_id.data ||
    (user_id.data.getLast? == some '\n' && qqCore user_id.data.dropLast)

/-- `UserRole` (security_manager.py lines 19-22). -/
inductive UserRole where
  | guest
  | self
  | master
deriving DecidableEq

/-- The role → capability table `role_permissions`
(security_manager.py lines 145-149). -/
def role_permissions : UserRole → List String
  | .guest => ["basic_query"]
  | .self => ["basic_query", "use_plugins"]
  | .master => ["basic_query", "use_plugins", "manage_plugins", "system_admin"]

/-- The state `SecurityManager._initialize` / `_load_config` set up
(security_manager.py lines 139-182): the configured master and self ids
and the blacklist keys.  `user_roles` receives the master id exactly
when the configured value is truthy (line 178-180). -/
structure SecState where
  master_qq : String
  self_qq : String
  blacklist : List String

/-- The `user_roles` dict after `_load_config`. -/
def user_roles (st : SecState) : List (String × UserRole) :=
  if pyTruthyStr st.master_qq then [(st.master_qq, UserRole.master)] else []

/-- `SecurityManager.get_user_role` (security_manager.py lines 184-200):
configured roles first, then the self id, else guest. -/
def get_user_role (st : SecState) (user_id : String) : UserRole :=
  match ((user_roles st).find? (fun p => p.1 == user_id)).map Prod.snd with
  | some r => r
  | none =>
    if pyTruthyStr st.self_qq && (user_id == st.self_qq) then UserRole.self
    else UserRole.guest

/-- `SecurityManager.check_permission` (security_manager.py lines
202-243): reject ill-formed user ids first (line 210-211), then
blacklisted ids (line 214-216), then grant exactly when the requested
capability is in the caller role's table (line 222). -/
def check_permission (st : SecState) (user_id permission : String) : Bool × String :=
  if !(is_valid_qq user_id) then (false, "invalid user id")
  else if user_id ∈ st.blacklist then (false, "blacklisted")
  else if permission ∈ role_permissions (get_user_role st user_id) then
    (true, "permission granted")
  else (false, "permission denied")

/-! ## Execution accountant and the dispatch boundary
(monitor.py lines 114-129, handler.py lines 196-238) -/

/-- A per-plugin entry of `MonitorManager.plugin_stats` (monitor.py
lines 116-122).  Durations (float seconds) are modelled as rationals. -/
structure PluginStats where
  total_executions : Nat
  successful_executions : Nat
  total_time : ℚ
  avg_execution_time : ℚ
deriving DecidableEq

/-- The `plugin_stats` dict. -/
abbrev StatsMap := List (String × PluginStats)

/-- Dict lookup in `plugin_stats`. -/
def statsLookup (m : StatsMap) (k : String) : Option PluginStats :=
  (m.find? (fun p => p.1 == k)).map Prod.snd

/-- Dict update: replace the entry for `k`, or append a fresh one. -/
def setEntry : StatsMap → String → PluginStats → StatsMap
  | [], k, v => [(k, v)]
  | (k0, v0) :: rest, k, v =>
    if k0 == k then (k, v) :: rest else (k0, v0) :: setEntry rest k v

/-- `MonitorManager.record_plugin_execution` (monitor.py lines 114-129):
initialise the per-plugin entry on first sight (lines 116-122), then add
one execution, one success when `success`, the elapsed time, and
recompute the average. -/
def record_plugin_execution (m : StatsMap) (plugin_name : String) (execution_time : ℚ)
    (success : Bool) : StatsMap :=
  let cur := (statsLookup m plugin_name).getD ⟨0, 0, 0, 0⟩
  let total := cur.total_executions + 1
  let succ2 := cur.successful_executions + (if success then 1 else 0)
  let time := cur.total_time + execution_time
  setEntry m plugin_name ⟨total, succ2, time, time / (total : ℚ)⟩

/-- How one plugin handler invocation ends: a normal return, or a raised
exception with its message. -/
inductive HandlerOutcome where
  | ok
  | raises (msg : String)
deriving DecidableEq

/-- The handler-invocation block of `dispatch_plugin_cmd` (handler.py
lines 202-238): the matched plugin's `handler_func` is called inside
`try`/`except Exception`.  On normal return one successful execution is
recorded (line 215); on any exception the `except` arm records exactly
one failed execution (line 229), logs, and falls through — the dispatch
pipeline continues and no exception escapes the block, which the model
expresses by returning `PyEval.ok` for every outcome.  The boolean is
the `handled` flag, set only on success (line 216). -/
def runMatchedHandler (stats : StatsMap) (plugin_name : String) (execution_time : ℚ)
    (outcome : HandlerOutcome) : PyEval (StatsMap × Bool) :=
  match outcome with
  | .ok => .ok (record_plugin_execution stats plugin_name execution_time true, true)
  | .raises _ => .ok (record_plugin_execution stats plugin_name execution_time false, false)

/-! ### Lemmas about the matcher -/

lemma filter_isEmpty_not_any (f : String → Bool) (l : List String) :
    (l.filter f).isEmpty = !(l.any f) := by
  induction l with
  | nil => rfl
  | cons x xs ih =>
    rw [List.filter_cons, List.any_cons]
    cases hx : f x
    · simpa using ih
    · simp

lemma get_matched_plugin_cons (mq raw ct sid : String) (atb : Bool) (p : RegPlugin)
    (rest : List RegPlugin) :
    get_matched_plugin mq raw ct sid atb (p :: rest) =
      if specPassesFilters mq raw ct sid atb p = true then some p
      else get_matched_plugin mq raw ct sid atb rest := by
  rw [get_matched_plugin, specPassesFilters]
  by_cases h1 : ct ∈ p.chat_type
  · cases hm : (p.permission == "master") <;>
    cases hs : (sid == mq) <;>
    cases hg : (ct == "group") <;>
    cases hr : p.is_at_required <;>
    cases ha : atb <;>
    cases h4 : p.commands.any (fun cmd => pyIn cmd raw) <;>
      simp [h1, bne, hm, hs, hg, hr, ha, h4, filter_isEmpty_not_any]
  · simp [h1]

lemma get_matched_plugin_eq_find (mq raw ct sid : String) (atb : Bool) :
    ∀ reg : List RegPlugin,
      get_matched_plugin mq raw ct sid atb reg =
        reg.find? (specPassesFilters mq raw ct sid atb) := by
  intro reg
  induction reg with
  | nil => rfl
  | cons p rest ih =>
    rw [get_matched_plugin_cons, List.find?_cons]
    cases hp : specPassesFilters mq raw ct sid atb p
    · simpa using ih
    · simp

/-! ### Lemmas about the rate limiter -/

lemma check_rate_limit_allows {now : Int} {st : List Int}
    (hhour : ∀ t ∈ st, now - t < 3600) (hlen : st.length ≤ 59) :
    check_rate_limit now st = ((true, none), st ++ [now]) := by
  have h1 : st.filter (fun t => now - t < 3600) = st :=
    List.filter_eq_self.mpr (fun t ht => by simpa using hhour t ht)
  have h2 : ¬ 60 ≤ (st.filter (fun t => now - t < 60)).length := by
    have := List.length_filter_le (fun t => decide (now - t < 60)) st
    omega
  have h3 : ¬ 1000 ≤ st.length := by omega
  simp only [check_rate_limit, h1]
  rw [if_neg h2, if_neg h3]

lemma runReqs_all_allowed :
    ∀ (l s : List Int),
      (∀ a ∈ s ++ l, ∀ b ∈ s ++ l, a - b < 60) → s.length + l.length ≤ 60 →
      runReqs l s = (List.replicate l.length true, s ++ l) := by
  intro l
  induction l with
  | nil => intro s _ _; simp [runReqs]
  | cons t ts ih =>
    intro s hwin hlen
    have hts : t ∈ s ++ t :: ts := List.mem_append.mpr (Or.inr (List.mem_cons_self t ts))
    have hstep : check_rate_limit t s = ((true, none), s ++ [t]) := by
      apply check_rate_limit_allows
      · intro x hx
        have := hwin t hts x (List.mem_append.mpr (Or.inl hx))
        omega
      · simp only [List.length_cons] at hlen
        omega
    have hmem : ∀ x : Int, x ∈ (s ++ [t]) ++ ts ↔ x ∈ s ++ t :: ts := by
      intro x
      simp only [List.mem_append, List.mem_cons, List.mem_singleton]
      tauto
    have hrec := ih (s ++ [t])
      (fun a ha b hb => hwin a ((hmem a).mp ha) b ((hmem b).mp hb))
      (by simp only [List.length_append, List.length_cons, List.length_nil] at hlen ⊢; omega)
    rw [runReqs]
    simp only [hstep, hrec]
    simp [List.replicate_succ]

lemma check_rate_limit_denies {t61 : Int} {st : List Int} (hlen : st.length = 60)
    (hmin : ∀ t ∈ st, t61 - t < 60) :
    check_rate_limit t61 st =
      ((false, some "requests too frequent: at most 60 per minute"), st) := by
  have h1 : st.filter (fun t => t61 - t < 3600) = st :=
    List.filter_eq_self.mpr (fun t ht => by
      have := hmin t ht
      simpa using (by omega : t61 - t < 3600))
  have h2 : st.filter (fun t => t61 - t < 60) = st :=
    List.filter_eq_self.mpr (fun t ht => by simpa using hmin t ht)
  simp only [check_rate_limit, h1, h2]
  rw [if_pos (by omega)]

lemma check_rate_limit_recovers {tr t1 : Int} {rest : List Int}
    (hrec : 60 ≤ tr - t1) (hlen : rest.length = 59) :
    (check_rate_limit tr (t1 :: rest)).1.1 = true := by
  have hcomb : ((t1 :: rest).filter (fun t => tr - t < 3600)).filter (fun t => tr - t < 60) =
      (t1 :: rest).filter (fun t => decide (tr - t < 60) && decide (tr - t < 3600)) :=
    List.filter_filter _ _
  have ht1 : (decide (tr - t1 < 60) && decide (tr - t1 < 3600)) = false := by
    have h60 : ¬ (tr - t1 < 60) := by omega
    simp [h60]
  have hdrop : (t1 :: rest).filter (fun t => decide (tr - t < 60) && decide (tr - t < 3600)) =
      rest.filter (fun t => decide (tr - t < 60) && decide (tr - t < 3600)) := by
    rw [List.filter_cons, ht1]
    simp
  have h2 : ¬ 60 ≤ (((t1 :: rest).filter (fun t => tr - t < 3600)).filter
      (fun t => tr - t < 60)).length := by
    rw [hcomb, hdrop]
    have := List.length_filter_le (fun t => decide (tr - t < 60) && decide (tr - t < 3600)) rest
    omega
  have h3 : ¬ 1000 ≤ ((t1 :: rest).filter (fun t => tr - t < 3600)).length := by
    have := List.length_filter_le (fun t => decide (tr - t < 3600)) (t1 :: rest)
    simp only [List.length_cons] at this
    omega
  simp only [check_rate_limit]
  rw [if_neg h2, if_neg h3]

/-! ### Lemmas about the accountant's stats map -/

lemma statsLookup_cons (k0 : String) (v0 : PluginStats) (l : StatsMap) (k : String) :
    statsLookup ((k0, v0) :: l) k = if (k0 == k) = true then some v0 else statsLookup l k := by
  rw [statsLookup, List.find?_cons]
  cases hk : (k0 == k) <;> simp [statsLookup, hk]

lemma statsLookup_setEntry_same : ∀ (m : StatsMap) (k : String) (v : PluginStats),
    statsLookup (setEntry m k v) k = some v := by
  intro m k v
  induction m with
  | nil => simp [setEntry, statsLookup_cons, statsLookup, List.find?]
  | cons e rest ih =>
    rcases e with ⟨k0, v0⟩
    rw [setEntry]
    by_cases hk : (k0 == k) = true
    · rw [if_pos hk, statsLookup_cons]
      simp
    · rw [if_neg hk, statsLookup_cons, if_neg hk]
      exact ih

lemma statsLookup_setEntry_other : ∀ (m : StatsMap) (k k2 : String) (v : PluginStats),
    k2 ≠ k → statsLookup (setEntry m k v) k2 = statsLookup m k2 := by
  intro m k k2 v hne
  induction m with
  | nil =>
    have hkk : (k == k2) = false := by
      cases h : (k == k2)
      · rfl
      · have h2 : k = k2 := by simpa using h
        exact absurd h2.symm hne
    simp [setEntry, statsLookup_cons, hkk, statsLookup, List.find?]
  | cons e rest ih =>
    rcases e with ⟨k0, v0⟩
    rw [setEntry]
    by_cases hk : (k0 == k) = true
    · rw [if_pos hk, statsLookup_cons, statsLookup_cons]
      have hk0 : k0 = k := by simpa using hk
      subst hk0
      have hkk : (k0 == k2) = false := by
        cases h : (k0 == k2)
        · rfl
        · have h2 : k0 = k2 := by simpa using h
          exact absurd h2.symm hne
      rw [hkk]
      simp
    · rw [if_neg hk, statsLookup_cons, statsLookup_cons]
      cases h0 : (k0 == k2)
      · simpa using ih
      · simp

/-! ## Concrete batch used by the counterexamples and witnesses -/

/-- Plugin `A`, depending on `B`. -/
def metaA : PluginMeta :=
  ⟨"A", some "1.0.0", ["cmd-a"], "handle_a", ["private", "group"], "all", false,
    [⟨"B", none, none⟩]⟩

/-- Plugin `B`, depending on `A`. -/
def metaB : PluginMeta :=
  ⟨"B", some "1.0.0", ["cmd-b"], "handle_b", ["private", "group"], "all", false,
    [⟨"A", none, none⟩]⟩

/-- Plugin `C`, with no dependencies. -/
def metaC : PluginMeta :=
  ⟨"C", some "1.0.0", ["cmd-c"], "handle_c", ["private", "group"], "all", false, []⟩

/-- A batch whose dependency graph is the 2-cycle `A ↔ B` plus the
isolated, dependency-free plugin `C`. -/
def cycleDirs : List PluginDirectory :=
  [⟨"A", true, false, "", some metaA⟩, ⟨"B", true, false, "", some metaB⟩,
   ⟨"C", true, false, "", some metaC⟩]

/-- A registered plugin usable by everyone, triggered by `foo`. -/
def pluginFoo : RegPlugin := ⟨"A", "1.0.0", ["foo"], ["private", "group"], "all", false⟩

/-- A master-only registered plugin, triggered by `foo`. -/
def pluginMaster : RegPlugin := ⟨"M", "1.0.0", ["foo"], ["private", "group"], "master", false⟩

/-! ## The claims -/

/-- C1, counterexample.  In the batch `cycleDirs` the dependency graph is
`A -> B -> A` plus the isolated `C`: `C` declares no dependencies and is
involved in no cycle, yet `init` registers nothing at all, because the
cycle detected at phase boundary makes `init` return before phase 2
(plugin_manager.py line 186).  The last conjunct shows `C` does load
when the cyclic pair is absent, so its exclusion is caused by the cycle
alone — refuting the claim that a cycle excludes only the involved
dependents while the batch continues. -/
theorem cycle_aborts_batch_counterexample :
    depsList (buildGraph (scanBatch cycleDirs)) "C" = [] ∧
    findCycle (buildGraph (scanBatch cycleDirs)) 10 = some ["A", "B", "A"] ∧
    initRegistry cycleDirs (fun _ => true) 10 = [] ∧
    initRegistry [⟨"C", true, false, "", some metaC⟩] (fun _ => true) 10 = ["C"] :=
  ⟨by decide, by decide, by decide, by decide⟩

/-- C1, amended.  A dependency cycle is fatal to the whole load batch:
whenever the scanned batch's dependency graph contains a (rendered
simple) cycle, `init` aborts before phase 2 and registers no plugin at
all — including plugins not involved in any cycle.  (Missing-dependency
and version errors, by contrast, are handled inside `load_plugin` and
fail only the dependent.) -/
theorem cycle_fatal_to_batch (dirs : List PluginDirectory) (binds : String → Bool)
    (fuel : Nat) (c0 : List String)
    (hfuel : (univList (buildGraph (scanBatch dirs))).length ≤ fuel)
    (hcyc : renderedCycle (buildGraph (scanBatch dirs)) c0) :
    initRegistry dirs binds fuel = [] := by
  obtain ⟨c, hc⟩ := findCycle_complete hfuel hcyc
  simp [initRegistry, hc]

/-- C1, witness for the amended theorem at the concrete batch
`cycleDirs`. -/
theorem cycle_fatal_to_batch_witness :
    initRegistry cycleDirs (fun _ => false) 10 = [] :=
  cycle_fatal_to_batch cycleDirs (fun _ => false) 10 ["A", "B", "A"] (by decide) (by decide)

/-- C2.  The dispatch pipeline's rate-limit gate is dead code: the source
writes `if not security_manager.check_rate_limit(key):` (handler.py
lines 25 and 102), but `check_rate_limit` returns the 2-tuple
`(allowed, message)` and a non-empty tuple is always truthy in Python,
so the denial branch never runs — even for a caller whose 60-requests
window is already full and whom the limiter itself reports as denied
(second conjunct evaluates the limiter at such a state). -/
theorem rate_limit_gate_never_blocks :
    (∀ (now : Int) (requests : List Int), rateGateBlocks now requests = false) ∧
    (check_rate_limit 0 (List.replicate 60 0)).1.1 = false ∧
    rateGateBlocks 0 (List.replicate 60 0) = false :=
  ⟨fun _ _ => rfl, by decide, rfl⟩

/-- C2, evaluation of the gate at one more concrete input. -/
theorem rate_limit_gate_witness :
    rateGateBlocks 5 [1, 2, 3] = false :=
  rate_limit_gate_never_blocks.1 5 [1, 2, 3]

/-- C3.  `reload_plugin` never returns a boolean: the un-declared
assignment to `PLUGIN_REGISTRY` at plugin_manager.py line 456 makes the
name local to the function, so the read at line 444 raises
`UnboundLocalError` on every call, outside the `try` that starts only at
line 453 — the exception propagates instead of `True`/`False` being
returned. -/
theorem reload_always_raises_unbound_local :
    (∀ (registry : List String) (plugin_name : String),
       reload_plugin registry plugin_name =
         PyEval.exc
           "UnboundLocalError: local variable PLUGIN_REGISTRY referenced before assignment") ∧
    (∀ (registry : List String) (plugin_name : String) (b : Bool),
       reload_plugin registry plugin_name ≠ PyEval.ok b) :=
  ⟨fun _ _ => rfl, fun _ _ _ h => PyEval.noConfusion h⟩

/-- C3, evaluation at a concrete call. -/
theorem reload_raises_witness :
    reload_plugin ["MonitorPlugin"] "MonitorPlugin" ≠ PyEval.ok true :=
  reload_always_raises_unbound_local.2 ["MonitorPlugin"] "MonitorPlugin" true

/-- C4.  Phase 1 can never parse an `adapter.json` descriptor: the
module never imports `json`, so `json.load` at plugin_manager.py line
238 raises `NameError` for every adapter file; a plugin directory whose
only descriptor is `adapter.json` is skipped entirely (first conjunct),
and the collected metadata is independent of the adapter file's content
(second conjunct) — when an `__init__.py` is present the scan falls back
to executing it, which runs plugin module code during phase 1. -/
theorem adapter_json_never_parsed :
    (∀ d : PluginDirectory, d.hasAdapterJson = true → d.hasInitPy = false →
        scanPluginDir d = none) ∧
    (∀ (d : PluginDirectory) (s1 s2 : String),
        scanPluginDir { d with adapterText := s1 } =
          scanPluginDir { d with adapterText := s2 }) := by
  constructor
  · intro d h1 h2
    simp [scanPluginDir, jsonLoadCall, h1, h2]
  · intro d s1 s2
    rfl

/-- C4, evaluation at a concrete adapter-only plugin directory with a
well-formed descriptor text. -/
theorem adapter_json_witness :
    scanPluginDir
      ⟨"Update_Plugin", false, true,
        "name: Update, commands: update, handler: handle_update", none⟩ = none :=
  adapter_json_never_parsed.1 _ rfl rfl

/-- C5.  `get_matched_plugin` scans the registry in registration order
and returns the first entry passing the four filters in their fixed
sequence — scope, master-only permission, group mention requirement,
trigger substring — (first conjunct: it equals `find?` of the spec's
filter predicate), returns `none` when no entry passes (second
conjunct), only returns plugins that pass all four filters (third
conjunct), and never returns a master-only plugin to a non-master caller
(fourth conjunct). -/
theorem matcher_first_match_semantics :
    (∀ (mq raw ct sid : String) (atb : Bool) (reg : List RegPlugin),
        get_matched_plugin mq raw ct sid atb reg =
          reg.find? (specPassesFilters mq raw ct sid atb)) ∧
    (∀ (mq raw ct sid : String) (atb : Bool) (reg : List RegPlugin),
        (∀ p ∈ reg, specPassesFilters mq raw ct sid atb p = false) →
          get_matched_plugin mq raw ct sid atb reg = none) ∧
    (∀ (mq raw ct sid : String) (atb : Bool) (reg : List RegPlugin) (p : RegPlugin),
        get_matched_plugin mq raw ct sid atb reg = some p →
          specPassesFilters mq raw ct sid atb p = true) ∧
    (∀ (mq raw ct sid : String) (atb : Bool) (reg : List RegPlugin) (p : RegPlugin),
        sid ≠ mq → get_matched_plugin mq raw ct sid atb reg = some p →
          p.permission ≠ "master") := by
  refine ⟨fun mq raw ct sid atb reg => get_matched_plugin_eq_find mq raw ct sid atb reg,
    ?_, ?_, ?_⟩
  · intro mq raw ct sid atb reg hall
    rw [get_matched_plugin_eq_find]
    exact List.find?_eq_none.mpr (fun p hp => by simp [hall p hp])
  · intro mq raw ct sid atb reg p h
    rw [get_matched_plugin_eq_find] at h
    exact List.find?_some h
  · intro mq raw ct sid atb reg p hne h hmaster
    rw [get_matched_plugin_eq_find] at h
    have hpass := List.find?_some h
    have h2 : (sid == mq) = true := by
      cases hqq : (sid == mq)
      · rw [specPassesFilters, hmaster] at hpass
        simp [hqq] at hpass
      · rfl
    exact hne (by simpa using h2)

/-- C5, evaluation at the spec's own example registry plus a master-only
registry for a non-master caller. -/
theorem matcher_witness :
    get_matched_plugin "192004908" "say foo please" "group" "55555" false [pluginFoo] =
      [pluginFoo].find? (specPassesFilters "192004908" "say foo please" "group" "55555" false) ∧
    get_matched_plugin "192004908" "bar" "group" "55555" false [pluginFoo] = none ∧
    get_matched_plugin "192004908" "foo" "private" "55555" false [pluginMaster] = none :=
  ⟨matcher_first_match_semantics.1 "192004908" "say foo please" "group" "55555" false [pluginFoo],
   matcher_first_match_semantics.2.1 "192004908" "bar" "group" "55555" false [pluginFoo]
     (by decide),
   matcher_first_match_semantics.2.1 "192004908" "foo" "private" "55555" false [pluginMaster]
     (by decide)⟩

/-- C6.  For a single key, starting from an empty record: 60 requests
within one 60-second window are all allowed and all recorded; a 61st
request inside the same window is denied and — unlike an allowed one —
records no timestamp; and a later request at least 60 seconds after the
first recovers capacity and is allowed again. -/
theorem rate_limiter_sliding_window (t1 : Int) (rest : List Int) (t61 tr : Int)
    (hlen : rest.length = 59)
    (hwin : ∀ a ∈ t1 :: (rest ++ [t61]), ∀ b ∈ t1 :: (rest ++ [t61]), a - b < 60)
    (hrec : 60 ≤ tr - t1) :
    (runReqs (t1 :: rest) []).1 = List.replicate 60 true ∧
    (runReqs (t1 :: rest) []).2 = t1 :: rest ∧
    (check_rate_limit t61 (t1 :: rest)).1.1 = false ∧
    (check_rate_limit t61 (t1 :: rest)).2 = t1 :: rest ∧
    (check_rate_limit tr (t1 :: rest)).1.1 = true := by
  have hmem : ∀ x ∈ t1 :: rest, x ∈ t1 :: (rest ++ [t61]) := by
    intro x hx
    rcases List.mem_cons.mp hx with h | h
    · exact h ▸ List.mem_cons_self _ _
    · exact List.mem_cons_of_mem _ (List.mem_append.mpr (Or.inl h))
  have ht61 : t61 ∈ t1 :: (rest ++ [t61]) :=
    List.mem_cons_of_mem _ (List.mem_append.mpr (Or.inr (List.mem_singleton.mpr rfl)))
  have hrun := runReqs_all_allowed (t1 :: rest) []
    (by
      intro a ha b hb
      simp only [List.nil_append] at ha hb
      exact hwin a (hmem a ha) b (hmem b hb))
    (by simp [hlen])
  have hden := check_rate_limit_denies (show (t1 :: rest).length = 60 by simp [hlen])
    (fun t ht => hwin t61 ht61 t (hmem t ht))
  have hrecv := check_rate_limit_recovers hrec hlen
  refine ⟨?_, ?_, ?_, ?_, hrecv⟩
  · rw [hrun]; simp [hlen]
  · rw [hrun]; simp
  · rw [hden]
  · rw [hden]

/-- C6, witness: 61 simultaneous requests and a recovery request one
minute later. -/
theorem rate_limiter_window_witness :
    (runReqs ((0 : Int) :: List.replicate 59 0) []).1 = List.replicate 60 true ∧
    (runReqs ((0 : Int) :: List.replicate 59 0) []).2 = (0 : Int) :: List.replicate 59 0 ∧
    (check_rate_limit 0 ((0 : Int) :: List.replicate 59 0)).1.1 = false ∧
    (check_rate_limit 0 ((0 : Int) :: List.replicate 59 0)).2 =
      (0 : Int) :: List.replicate 59 0 ∧
    (check_rate_limit 60 ((0 : Int) :: List.replicate 59 0)).1.1 = true :=
  rate_limiter_sliding_window 0 (List.replicate 59 0) 0 60 (by decide) (by decide) (by decide)

/-- C7.  `compare_versions` is a total order consistent with
component-wise integer comparison after zero-padding the shorter parsed
version to equal length: the two examples of the spec hold, and the
comparison is reflexive, antisymmetric, total and transitive under that
interpretation. -/
theorem version_compare_total_order :
    compare_versions "1.2" "1.2.0" = 0 ∧
    0 < compare_versions "2.0" "1.9.9" ∧
    (∀ a, compare_versions a a = 0) ∧
    (∀ a b, compare_versions a b = -compare_versions b a) ∧
    (∀ a b, compare_versions a b = 1 ∨ compare_versions a b = 0 ∨
      compare_versions a b = -1) ∧
    (∀ a b, compare_versions a b =
      cmpComponents
        (padTo (parse_version a) (max (parse_version a).length (parse_version b).length))
        (padTo (parse_version b) (max (parse_version a).length (parse_version b).length))) ∧
    (∀ a b c, compare_versions a b ≤ 0 → compare_versions b c ≤ 0 →
      compare_versions a c ≤ 0) :=
  ⟨by decide, by decide, compare_versions_refl, compare_versions_antisymm,
   compare_versions_total, compare_versions_eq_cmp, compare_versions_trans⟩

/-- C7, witness: transitivity applied through `"1.0" ≤ "1.0.0" ≤ "1.1"`. -/
theorem version_compare_witness :
    compare_versions "1.0" "1.1" ≤ 0 :=
  version_compare_total_order.2.2.2.2.2.2 "1.0" "1.0.0" "1.1" (by decide) (by decide)

/-- C8.  A handler that raises during dispatch is caught at the dispatch
boundary: `runMatchedHandler` returns normally (no exception escapes)
with `handled = false`, and exactly one failed-execution record is added
to the accountant for that plugin — its total executions grow by one,
its successful executions are unchanged, and every other plugin's stats
are untouched. -/
theorem handler_exception_one_failed_record :
    ∀ (stats : StatsMap) (plugin_name : String) (dur : ℚ) (msg : String),
      ∃ st2, runMatchedHandler stats plugin_name dur (HandlerOutcome.raises msg) =
          PyEval.ok (st2, false) ∧
        (statsLookup st2 plugin_name).map PluginStats.total_executions =
          some (((statsLookup stats plugin_name).getD ⟨0, 0, 0, 0⟩).total_executions + 1) ∧
        (statsLookup st2 plugin_name).map PluginStats.successful_executions =
          some ((statsLookup stats plugin_name).getD ⟨0, 0, 0, 0⟩).successful_executions ∧
        (∀ other, other ≠ plugin_name → statsLookup st2 other = statsLookup stats other) := by
  intro stats name dur msg
  refine ⟨record_plugin_execution stats name dur false, rfl, ?_, ?_, ?_⟩
  · simp only [record_plugin_execution, statsLookup_setEntry_same]
    rfl
  · simp only [record_plugin_execution, statsLookup_setEntry_same]
    rfl
  · intro other hne
    simp only [record_plugin_execution]
    exact statsLookup_setEntry_other _ _ _ _ hne

/-- C8, witness at a fresh accountant. -/
theorem handler_exception_witness :
    ∃ st2, runMatchedHandler [] "demo" 1 (HandlerOutcome.raises "boom") =
        PyEval.ok (st2, false) ∧
      (statsLookup st2 "demo").map PluginStats.total_executions =
        some (((statsLookup [] "demo").getD ⟨0, 0, 0, 0⟩).total_executions + 1) ∧
      (statsLookup st2 "demo").map PluginStats.successful_executions =
        some ((statsLookup [] "demo").getD ⟨0, 0, 0, 0⟩).successful_executions ∧
      (∀ other, other ≠ "demo" → statsLookup st2 other = statsLookup [] other) :=
  handler_exception_one_failed_record [] "demo" 1 "boom"

/-- C9.  Cycle detection does not merely flag a cycle: whatever it
reports is a fully rendered cycle path — first and last entries equal,
every consecutive pair a declared dependency edge, entries before the
final repetition pairwise distinct, so its `length - 1` equals the
length (in nodes and in edges alike) of the genuine simple cycle it
renders (first conjunct); and whenever the descriptor set contains a
cycle at all, detection (with fuel covering the graph's node
occurrences) reports such a path (second conjunct). -/
theorem cycle_report_renders_true_cycle :
    (∀ (g : DepGraph) (fuel : Nat) (c : List String),
        findCycle g fuel = some c → renderedCycle g c) ∧
    (∀ (g : DepGraph) (fuel : Nat) (c0 : List String),
        (univList g).length ≤ fuel → renderedCycle g c0 →
          ∃ c, findCycle g fuel = some c ∧ renderedCycle g c) := by
  refine ⟨fun g fuel c h => findCycle_sound h, fun g fuel c0 hf hc => ?_⟩
  obtain ⟨c, hc2⟩ := findCycle_complete hf hc
  exact ⟨c, hc2, findCycle_sound hc2⟩

/-- C9, witness on the two-node cycle. -/
theorem cycle_report_witness :
    renderedCycle [("A", ["B"]), ("B", ["A"])] ["A", "B", "A"] ∧
    (∃ c, findCycle [("A", ["B"]), ("B", ["A"])] 4 = some c ∧
      renderedCycle [("A", ["B"]), ("B", ["A"])] c) :=
  ⟨by decide, cycle_report_renders_true_cycle.2 [("A", ["B"]), ("B", ["A"])] 4 ["A", "B", "A"]
    (by decide) (by decide)⟩

/-- C10.  `check_permission` denies every capability to every caller id
that `is_valid_qq` rejects — whatever the configured master and self
ids, the blacklist, or the requested capability — and `is_valid_qq`
rejects in particular ids shorter than five digits, ids with a leading
zero, and non-numeric ids. -/
theorem invalid_caller_id_denied :
    (∀ (st : SecState) (user_id permission : String),
        is_valid_qq user_id = false → (check_permission st user_id permission).1 = false) ∧
    is_valid_qq "1234" = false ∧
    is_valid_qq "0123456" = false ∧
    is_valid_qq "system" = false := by
  refine ⟨?_, by decide, by decide, by decide⟩
  intro st uid perm h
  simp [check_permission, h]

/-- C10, witness: even a caller id configured as the master is denied
`system_admin` when it is not a well-formed QQ id. -/
theorem invalid_caller_id_witness :
    (check_permission ⟨"system", "system", []⟩ "system" "system_admin").1 = false :=
  invalid_caller_id_denied.1 ⟨"system", "system", []⟩ "system" "system_admin" (by decide)

end GracyBot
